import Mathlib

/-!
Verification of the pipeline-and-validation core of the tddpractice
repository (src/app/tools.js and src/app/validators.js), over a shallow
embedding of the relevant JavaScript fragment.

JavaScript objects are modelled as ordered association lists of own
enumerable string-keyed properties, arrays as lists, and numbers as
integers (every numeric value in the repository is an integer; fractional
parsing is out of scope).  Promise/async behaviour is modelled by an
explicit step-result type that the pipeline awaits, and a thrown exception
or rejected promise by the error side of Except.  cloneDeep is the
identity at the level of values.
-/

set_option maxHeartbeats 1000000

namespace App

/-- JavaScript runtime values: primitives, objects as ordered association
lists of own enumerable properties, and arrays.  Function values are not
first-class here; the single function-valued field of the code (a resolved
restriction operator) is modelled separately. -/
inductive JSVal : Type where
  | str : String → JSVal
  | num : Int → JSVal
  | bool : Bool → JSVal
  | null : JSVal
  | undef : JSVal
  | obj : List (String × JSVal) → JSVal
  | arr : List JSVal → JSVal

mutual

/-- Decidable equality of modelled values, by hand because deriving does
not handle the nested lists. -/
def decEqJSVal : (a b : JSVal) → Decidable (a = b)
  | .str x, .str y =>
    if h : x = y then .isTrue (by rw [h]) else .isFalse (by simp [h])
  | .num x, .num y =>
    if h : x = y then .isTrue (by rw [h]) else .isFalse (by simp [h])
  | .bool x, .bool y =>
    if h : x = y then .isTrue (by rw [h]) else .isFalse (by simp [h])
  | .null, .null => .isTrue rfl
  | .undef, .undef => .isTrue rfl
  | .obj xs, .obj ys =>
    match decEqJSFields xs ys with
    | .isTrue h => .isTrue (by rw [h])
    | .isFalse h => .isFalse (by simp [h])
  | .arr xs, .arr ys =>
    match decEqJSList xs ys with
    | .isTrue h => .isTrue (by rw [h])
    | .isFalse h => .isFalse (by simp [h])
  | .str _, .num _ => .isFalse (by simp)
  | .str _, .bool _ => .isFalse (by simp)
  | .str _, .null => .isFalse (by simp)
  | .str _, .undef => .isFalse (by simp)
  | .str _, .obj _ => .isFalse (by simp)
  | .str _, .arr _ => .isFalse (by simp)
  | .num _, .str _ => .isFalse (by simp)
  | .num _, .bool _ => .isFalse (by simp)
  | .num _, .null => .isFalse (by simp)
  | .num _, .undef => .isFalse (by simp)
  | .num _, .obj _ => .isFalse (by simp)
  | .num _, .arr _ => .isFalse (by simp)
  | .bool _, .str _ => .isFalse (by simp)
  | .bool _, .num _ => .isFalse (by simp)
  | .bool _, .null => .isFalse (by simp)
  | .bool _, .undef => .isFalse (by simp)
  | .bool _, .obj _ => .isFalse (by simp)
  | .bool _, .arr _ => .isFalse (by simp)
  | .null, .str _ => .isFalse (by simp)
  | .null, .num _ => .isFalse (by simp)
  | .null, .bool _ => .isFalse (by simp)
  | .null, .undef => .isFalse (by simp)
  | .null, .obj _ => .isFalse (by simp)
  | .null, .arr _ => .isFalse (by simp)
  | .undef, .str _ => .isFalse (by simp)
  | .undef, .num _ => .isFalse (by simp)
  | .undef, .bool _ => .isFalse (by simp)
  | .undef, .null => .isFalse (by simp)
  | .undef, .obj _ => .isFalse (by simp)
  | .undef, .arr _ => .isFalse (by simp)
  | .obj _, .str _ => .isFalse (by simp)
  | .obj _, .num _ => .isFalse (by simp)
  | .obj _, .bool _ => .isFalse (by simp)
  | .obj _, .null => .isFalse (by simp)
  | .obj _, .undef => .isFalse (by simp)
  | .obj _, .arr _ => .isFalse (by simp)
  | .arr _, .str _ => .isFalse (by simp)
  | .arr _, .num _ => .isFalse (by simp)
  | .arr _, .bool _ => .isFalse (by simp)
  | .arr _, .null => .isFalse (by simp)
  | .arr _, .undef => .isFalse (by simp)
  | .arr _, .obj _ => .isFalse (by simp)

/-- Decidable equality of object field lists. -/
def decEqJSFields : (xs ys : List (String × JSVal)) → Decidable (xs = ys)
  | [], [] => .isTrue rfl
  | [], _ :: _ => .isFalse (by simp)
  | _ :: _, [] => .isFalse (by simp)
  | (k1, v1) :: r1, (k2, v2) :: r2 =>
    if hk : k1 = k2 then
      match decEqJSVal v1 v2, decEqJSFields r1 r2 with
      | .isTrue hv, .isTrue hr => .isTrue (by rw [hk, hv, hr])
      | .isFalse hv, _ => .isFalse (by simp [hv])
      | _, .isFalse hr => .isFalse (by simp [hr])
    else .isFalse (by simp [hk])

/-- Decidable equality of array element lists. -/
def decEqJSList : (xs ys : List JSVal) → Decidable (xs = ys)
  | [], [] => .isTrue rfl
  | [], _ :: _ => .isFalse (by simp)
  | _ :: _, [] => .isFalse (by simp)
  | x :: r1, y :: r2 =>
    match decEqJSVal x y, decEqJSList r1 r2 with
    | .isTrue hv, .isTrue hr => .isTrue (by rw [hv, hr])
    | .isFalse hv, _ => .isFalse (by simp [hv])
    | _, .isFalse hr => .isFalse (by simp [hr])

end

instance : DecidableEq JSVal := decEqJSVal

instance {ε α : Type} [DecidableEq ε] [DecidableEq α] : DecidableEq (Except ε α) := fun a b =>
  match a, b with
  | .ok x, .ok y =>
    if h : x = y then .isTrue (by rw [h]) else .isFalse (by simp [h])
  | .error x, .error y =>
    if h : x = y then .isTrue (by rw [h]) else .isFalse (by simp [h])
  | .ok _, .error _ => .isFalse (by simp)
  | .error _, .ok _ => .isFalse (by simp)

/-- The JavaScript typeof operator on the modelled values.  Arrays and
null both have runtime type string "object". -/
def typeOf : JSVal → String
  | .str _ => "string"
  | .num _ => "number"
  | .bool _ => "boolean"
  | .null => "object"
  | .undef => "undefined"
  | .obj _ => "object"
  | .arr _ => "object"

/-- Array.isArray. -/
def jsIsArray : JSVal → Bool
  | .arr _ => true
  | _ => false

/-- Test for a plain object value. -/
def jsIsObj : JSVal → Bool
  | .obj _ => true
  | _ => false

/-- Lookup of the first entry with the given key in an association list
(JavaScript objects never hold two entries with the same key, so first
and only). -/
def propGet {β : Type} (l : List (String × β)) (k : String) : Option β :=
  (l.find? (fun p => p.1 == k)).map (fun p => p.2)

/-- JavaScript property assignment on an association list: an existing
key keeps its position and has its value updated, a fresh key is appended. -/
def propSet {β : Type} : List (String × β) → String → β → List (String × β)
  | [], k, v => [(k, v)]
  | p :: rest, k, v => if p.1 = k then (k, v) :: rest else p :: propSet rest k v

/-- The own enumerable entries of a value, as the JavaScript for..in /
Object.keys order sees them: object properties in insertion order, array
and string elements under their decimal index keys, nothing for the
primitives. -/
def ownEntries : JSVal → List (String × JSVal)
  | .obj kvs => kvs
  | .arr xs => xs.enum.map (fun p => (toString p.1, p.2))
  | .str s => s.data.enum.map (fun p => (toString p.1, JSVal.str (String.mk [p.2])))
  | _ => []

/-- Object.keys. -/
def objectKeys (v : JSVal) : List String :=
  (ownEntries v).map Prod.fst

/-- Property access value[k], yielding undefined when the key is absent.
(Property access on null or undefined throws in JavaScript; no claim
exercises that corner, and the lodash get/set helpers that the code uses
on nested paths are themselves null-safe.) -/
def getProp (v : JSVal) (k : String) : JSVal :=
  (propGet (ownEntries v) k).getD JSVal.undef

/-! ### Pipeline executor, from src/app/tools.js

pipe (...fns) returns input => fns.reduce(async (previousOutput, fn) =>
fn(await previousOutput), input).  A step can return a plain value,
return a promise (resolved or rejected), or throw synchronously; the
async reducer awaits the accumulator before invoking the next step, so a
failure short-circuits every later step. -/

/-- The possible outcomes of invoking one step function: a plain
synchronous value, a resolved promise, a rejected promise, or a
synchronously thrown exception. -/
inductive JSResult (ε α : Type) : Type where
  | val : α → JSResult ε α
  | promiseOk : α → JSResult ε α
  | promiseErr : ε → JSResult ε α
  | thrown : ε → JSResult ε α

/-- Awaiting a step outcome: plain values and resolved promises yield
the value, rejections and thrown exceptions propagate as failures. -/
def awaitJS {ε α : Type} : JSResult ε α → Except ε α
  | .val a => Except.ok a
  | .promiseOk a => Except.ok a
  | .promiseErr e => Except.error e
  | .thrown e => Except.error e

/-- pipe from src/app/tools.js: fns.reduce(async (previousOutput, fn) =>
fn(await previousOutput), input).  The overall result is the resolved
value of the final promise, or its rejection. -/
def pipe {ε α : Type} (fns : List (α → JSResult ε α)) : α → Except ε α :=
  fun input =>
    fns.foldl (fun previousOutput fn => previousOutput.bind (fun v => awaitJS (fn v)))
      (Except.ok input)

/-- applyFilters from src/app/tools.js:
data.filter(element => filters.every(filter => filter(element))). -/
def applyFilters {α : Type} (filters : List (α → Bool)) : List α → List α :=
  fun data => data.filter (fun element => filters.all (fun filter => filter element))

/-! ### Lemmas about the pipeline -/

theorem pipe_foldl_error {ε α : Type} (fns : List (α → JSResult ε α)) (e : ε) :
    fns.foldl (fun previousOutput fn => previousOutput.bind (fun v => awaitJS (fn v)))
      (Except.error e) = Except.error e := by
  induction fns with
  | nil => rfl
  | cons f rest ih => simpa using ih

/-- C2: pipe with zero steps returns the input unchanged; pipe with one
step resolves to that step applied to the input; pipe with three steps
resolves to the sequential composition that awaits each step before
feeding the next; and a synchronous step and the promise-wrapped form of
the same step produce the same pipeline. -/
theorem pipe_claim {ε α : Type} (f g h : α → JSResult ε α) (f0 : α → α) (x : α) :
    pipe ([] : List (α → JSResult ε α)) x = Except.ok x
    ∧ pipe [f] x = awaitJS (f x)
    ∧ pipe [f, g, h] x =
        (awaitJS (f x)).bind (fun y => (awaitJS (g y)).bind (fun z => awaitJS (h z)))
    ∧ pipe ([fun y => JSResult.val (f0 y)] : List (α → JSResult ε α)) x =
        pipe ([fun y => JSResult.promiseOk (f0 y)] : List (α → JSResult ε α)) x := by
  refine ⟨rfl, rfl, ?_, rfl⟩
  show ((awaitJS (f x)).bind (fun y => awaitJS (g y))).bind (fun z => awaitJS (h z)) = _
  cases awaitJS (f x) with
  | error e => rfl
  | ok y =>
    cases awaitJS (g y) with
    | error e => rfl
    | ok z => rfl

/-- C3: if a step of the pipeline throws or rejects, the whole pipeline
fails with exactly that failure, whatever steps follow: the result is an
error, never a partial value, and the trailing steps are irrelevant. -/
theorem pipe_failfast {ε α : Type} (pre : List (α → JSResult ε α))
    (f : α → JSResult ε α) (post : List (α → JSResult ε α)) (x v : α) (e : ε)
    (hpre : pipe pre x = Except.ok v) (hf : awaitJS (f v) = Except.error e) :
    pipe (pre ++ f :: post) x = Except.error e := by
  show (pre ++ f :: post).foldl _ _ = _
  rw [List.foldl_append]
  have hpre2 : pre.foldl
      (fun previousOutput fn => previousOutput.bind (fun w => awaitJS (fn w)))
      (Except.ok x) = Except.ok v := hpre
  rw [hpre2]
  show (f :: post).foldl _ _ = _
  have hstep : (Except.ok v).bind (fun w => awaitJS (f w)) = Except.error e := hf
  simp only [List.foldl_cons, hstep]
  exact pipe_foldl_error post e

/-- Witness for C3 at a concrete pipeline: add two, then a throwing step,
then times three; the result is the thrown failure. -/
theorem pipe_failfast_witness :
    pipe ([fun n => JSResult.val (n + 2)] ++
      (fun _ => JSResult.thrown "boom") :: [fun n => JSResult.val (n * 3)]) (1 : Nat) =
      Except.error "boom" :=
  pipe_failfast [fun n => JSResult.val (n + 2)] (fun _ => JSResult.thrown "boom")
    [fun n => JSResult.val (n * 3)] 1 3 "boom" rfl rfl

/-! ### Lemmas about the filter stage -/

/-- C7: applyFilters returns an order-preserving subsequence of its input,
every retained element passes every predicate, every element passing all
predicates is retained, and the empty predicate list is the identity.
(The embedding is pure, so the input list and its elements are left
untouched by construction, as the source achieves by returning a fresh
filtered array.) -/
theorem applyFilters_claim {α : Type} (ps : List (α → Bool)) (xs : List α) :
    (applyFilters ps xs).Sublist xs
    ∧ (∀ e, e ∈ applyFilters ps xs → ∀ p, p ∈ ps → p e = true)
    ∧ (∀ e, e ∈ xs → (∀ p, p ∈ ps → p e = true) → e ∈ applyFilters ps xs)
    ∧ applyFilters [] xs = xs := by
  refine ⟨List.filter_sublist xs, ?_, ?_, ?_⟩
  · intro e he p hp
    have hmem := List.mem_filter.mp he
    exact List.all_eq_true.mp hmem.2 p hp
  · intro e he hall
    exact List.mem_filter.mpr ⟨he, List.all_eq_true.mpr hall⟩
  · show xs.filter (fun _ => List.all [] _) = xs
    simp [applyFilters]

/-- Witness for C7 at the unit-test instance: with the single predicate
x < 4 over [1, 3, 5], the element 1 is retained. -/
theorem applyFilters_claim_witness :
    (1 : Nat) ∈ applyFilters [fun n => decide (n < 4)] [1, 3, 5] :=
  (applyFilters_claim [fun n => decide (n < 4)] [1, 3, 5]).2.2.1 1 (by decide)
    (by intro p hp; rw [List.mem_singleton] at hp; subst hp; decide)

/-! ### Interface validator, from src/app/validators.js -/

/-- checkTypeWith from src/app/validators.js.  For the key under test the
expected type is model[key]; the tag "array" demands Array.isArray, any
other tag demands that typeof of the value equal the tag.  When the model
has no entry for the key, the regex test of the string "undefined" is
false and a typeof string never equals undefined, so the check fails. -/
def checkTypeWith (input : JSVal) (model : List (String × String)) (key : String) : Bool :=
  match propGet model key with
  | some expectedType =>
    if expectedType = "array" then jsIsArray (getProp input key)
    else typeOf (getProp input key) == expectedType
  | none => false

/-- isObjectValidInterface: Object.keys(input).every(checkTypeWith(input, model)). -/
def isObjectValidInterface (input : JSVal) (model : List (String × String)) : Bool :=
  (objectKeys input).all (checkTypeWith input model)

/-- isValidInterface: an array validates when every element does,
anything else is checked as a single record. -/
def isValidInterface (input : JSVal) (model : List (String × String)) : Bool :=
  match input with
  | .arr xs => xs.all (fun element => isObjectValidInterface element model)
  | _ => isObjectValidInterface input model

/-! ### Restriction engine, from src/app/validators.js -/

/-- A restriction as configured: property name, symbolic operator name,
literal threshold. -/
structure Restriction : Type where
  property : String
  operator : String
  value : JSVal

/-- A restriction after substituteOperators: the operator field now holds
the comparison function resolved from the registry, or nothing when the
symbolic name is unknown (the JavaScript value undefined). -/
structure ResolvedRestriction : Type where
  property : String
  operator : Option (JSVal → JSVal → Bool)
  value : JSVal

/-- Value of a nonempty string of decimal digits, none when some
character is not a digit. -/
def digitsToNat (ds : List Char) : Option Nat :=
  if ds.all Char.isDigit ∧ ds ≠ [] then
    some (ds.foldl (fun acc c => acc * 10 + (c.toNat - 48)) 0)
  else none

/-- Numeric value of an optionally signed decimal integer string, the
fragment of the Number() string grammar the repository exercises. -/
def strToInt (s : String) : Option Int :=
  match s.data with
  | '-' :: ds => (digitsToNat ds).map (fun n => -(n : Int))
  | '+' :: ds => (digitsToNat ds).map (fun n => (n : Int))
  | ds => (digitsToNat ds).map (fun n => (n : Int))

/-- The JavaScript Number() coercion, restricted to the integer-valued
fragment the repository exercises; none is NaN.  Fractional numerals,
surrounding whitespace and object-to-primitive coercion are not modelled
(nothing in the code or the claims uses them). -/
def toNumber : JSVal → Option Int
  | .num n => some n
  | .str s => if s = "" then some 0 else strToInt s
  | .bool b => some (if b then 1 else 0)
  | .null => some 0
  | .undef => none
  | .obj _ => none
  | .arr _ => none

/-- The registered comparison (a, b) => Number(a) < Number(b); a NaN on
either side makes the comparison false. -/
def jsLessThan (a b : JSVal) : Bool :=
  match toNumber a, toNumber b with
  | some x, some y => decide (x < y)
  | _, _ => false

/-- The operator registry built inside substituteOperators; it holds the
single entry "less than". -/
def operators (name : String) : Option (JSVal → JSVal → Bool) :=
  if name = "less than" then some jsLessThan else none

/-- substituteOperator from src/app/validators.js: replace the symbolic
operator field by its registry entry. -/
def substituteOperator (ops : String → Option (JSVal → JSVal → Bool))
    (restriction : Restriction) : ResolvedRestriction :=
  { property := restriction.property
    operator := ops restriction.operator
    value := restriction.value }

/-- substituteOperators from src/app/validators.js.  The source deep
clones the list and then mutates the clones, which at the level of values
is a plain map leaving the argument untouched. -/
def substituteOperators (restrictions : List Restriction) : List ResolvedRestriction :=
  restrictions.map (substituteOperator operators)

/-- applyOperator from src/app/validators.js:
restriction.operator(input[restriction.property], restriction.value).
Invoking the undefined operator of an unrecognized name throws a
TypeError. -/
def applyOperator (input : JSVal) (restriction : ResolvedRestriction) : Except String Bool :=
  match restriction.operator with
  | some op => Except.ok (op (getProp input restriction.property) restriction.value)
  | none => Except.error "TypeError: restriction.operator is not a function"

/-- Array.prototype.every over a predicate that may throw: stops at the
first false or at the first exception. -/
def jsEvery {α : Type} : List α → (α → Except String Bool) → Except String Bool
  | [], _ => Except.ok true
  | x :: xs, f =>
    match f x with
    | Except.error e => Except.error e
    | Except.ok false => Except.ok false
    | Except.ok true => jsEvery xs f

/-- complyWith from src/app/validators.js: resolve the restrictions, then
check every element of an array input, or the single record, against
every resolved restriction. -/
def complyWith (input : JSVal) (restrictions : List Restriction) : Except String Bool :=
  let formattedRestrictions := substituteOperators restrictions
  match input with
  | .arr xs => jsEvery xs (fun element => jsEvery formattedRestrictions (applyOperator element))
  | _ => jsEvery formattedRestrictions (applyOperator input)

/-- The boolean reading of one resolved restriction on one record, the
satisfaction notion of the specification. -/
def restrictionHolds (input : JSVal) (restriction : ResolvedRestriction) : Bool :=
  match restriction.operator with
  | some op => op (getProp input restriction.property) restriction.value
  | none => false

/-! ### Lemmas about the validators -/

theorem all_congrOn {α : Type} (l : List α) (f g : α → Bool)
    (h : ∀ x ∈ l, f x = g x) : l.all f = l.all g := by
  induction l with
  | nil => rfl
  | cons x xs ih =>
    simp only [List.all_cons]
    rw [h x (List.mem_cons_self x xs), ih (fun y hy => h y (List.mem_cons_of_mem x hy))]

theorem propGet_cons_ne {β : Type} (k k2 : String) (v : β) (l : List (String × β))
    (h : k ≠ k2) : propGet ((k, v) :: l) k2 = propGet l k2 := by
  simp only [propGet, List.find?]
  have : ((k, v).1 == k2) = false := by simpa using h
  rw [this]

theorem jsEvery_ok {α : Type} (l : List α) (f : α → Except String Bool) (g : α → Bool)
    (h : ∀ x ∈ l, f x = Except.ok (g x)) : jsEvery l f = Except.ok (l.all g) := by
  induction l with
  | nil => rfl
  | cons x xs ih =>
    have hx := h x (List.mem_cons_self x xs)
    have htail := ih (fun y hy => h y (List.mem_cons_of_mem x hy))
    simp only [jsEvery, hx, List.all_cons]
    cases hgx : g x with
    | false => simp
    | true => simpa using htail

/-- C4: isValidInterface iterates over the keys of the record only: a
model entry for a key absent from the record never changes the verdict, a
record key with no model entry forces the verdict false, and an array
input validates exactly when every element does. -/
theorem isValidInterface_claim :
    (∀ (kvs : List (String × JSVal)) (m : List (String × String)) (k t : String),
      k ∉ kvs.map Prod.fst →
      isValidInterface (JSVal.obj kvs) ((k, t) :: m) = isValidInterface (JSVal.obj kvs) m)
    ∧ (∀ (kvs : List (String × JSVal)) (m : List (String × String)) (k : String) (v : JSVal),
      (k, v) ∈ kvs → propGet m k = none → isValidInterface (JSVal.obj kvs) m = false)
    ∧ (∀ (xs : List JSVal) (m : List (String × String)),
      isValidInterface (JSVal.arr xs) m =
        xs.all (fun element => isObjectValidInterface element m)) := by
  refine ⟨?_, ?_, fun xs m => rfl⟩
  · intro kvs m k t hk
    show isObjectValidInterface _ _ = isObjectValidInterface _ _
    unfold isObjectValidInterface
    refine all_congrOn _ _ _ ?_
    intro key hkey
    have hkeys : objectKeys (JSVal.obj kvs) = kvs.map Prod.fst := rfl
    rw [hkeys] at hkey
    have hne : k ≠ key := fun heq => hk (heq ▸ hkey)
    unfold checkTypeWith
    rw [propGet_cons_ne k key t m hne]
  · intro kvs m k v hkv hnone
    show isObjectValidInterface _ _ = false
    unfold isObjectValidInterface
    cases hall : (objectKeys (JSVal.obj kvs)).all (checkTypeWith (JSVal.obj kvs) m) with
    | false => rfl
    | true =>
      exfalso
      have hkmem : k ∈ objectKeys (JSVal.obj kvs) := by
        show k ∈ kvs.map Prod.fst
        exact List.mem_map.mpr ⟨(k, v), hkv, rfl⟩
      have := List.all_eq_true.mp hall k hkmem
      unfold checkTypeWith at this
      rw [hnone] at this
      exact Bool.false_ne_true this

/-- Witness for C4: a record missing the modeled key zzz still validates
the same way, and a record whose key b has no model entry is rejected. -/
theorem isValidInterface_claim_witness :
    isValidInterface (JSVal.obj [("a", JSVal.str "foo")]) [("zzz", "number"), ("a", "string")] =
      isValidInterface (JSVal.obj [("a", JSVal.str "foo")]) [("a", "string")]
    ∧ isValidInterface (JSVal.obj [("b", JSVal.num 1)]) [("a", "string")] = false :=
  ⟨isValidInterface_claim.1 [("a", JSVal.str "foo")] [("a", "string")] "zzz" "number" (by decide),
   isValidInterface_claim.2.1 [("b", JSVal.num 1)] [("a", "string")] "b" (JSVal.num 1)
     (by decide) (by decide)⟩

/-- C10: under the tag "object" an array value and the null value both
pass the type check, since their runtime typeof is the string "object";
only the tag "array" separates arrays, accepting exactly them. -/
theorem checkTypeWith_claim (input : JSVal) (m : List (String × String)) (k : String) :
    (propGet m k = some "object" →
      jsIsArray (getProp input k) = true ∨ getProp input k = JSVal.null →
      checkTypeWith input m k = true)
    ∧ (propGet m k = some "array" →
      (checkTypeWith input m k = true ↔ jsIsArray (getProp input k) = true)) := by
  constructor
  · intro hm hv
    unfold checkTypeWith
    rw [hm]
    have hobj : typeOf (getProp input k) = "object" := by
      rcases hv with harr | hnull
      · cases hp : getProp input k <;> rw [hp] at harr <;> first | rfl | exact absurd harr (by simp [jsIsArray])
      · rw [hnull]; rfl
    simp [hobj]
  · intro hm
    unfold checkTypeWith
    rw [hm]
    simp

/-- Witness for C10: the key b holds an array and the model tags it as
object; the check passes. -/
theorem checkTypeWith_claim_witness :
    checkTypeWith (JSVal.obj [("b", JSVal.arr [])]) [("b", "object")] "b" = true :=
  (checkTypeWith_claim (JSVal.obj [("b", JSVal.arr [])]) [("b", "object")] "b").1
    (by decide) (Or.inl (by decide))

/-- C5: complyWith resolves the restrictions and then demands every
restriction of every element (array input) or of the single record,
satisfaction of one restriction being the resolved operator applied to
the record field and the literal; on the three concrete inputs of the
specification it returns true, false and true. -/
theorem complyWith_claim (input : JSVal) (restrictions : List Restriction)
    (hall : ∀ r ∈ restrictions, (operators r.operator).isSome = true) :
    complyWith input restrictions =
      Except.ok (match input with
        | JSVal.arr xs =>
          xs.all (fun element => (substituteOperators restrictions).all (restrictionHolds element))
        | v => (substituteOperators restrictions).all (restrictionHolds v))
    ∧ complyWith (JSVal.obj [("distance", JSVal.num 100)])
        [⟨"distance", "less than", JSVal.str "200"⟩] = Except.ok true
    ∧ complyWith (JSVal.arr [JSVal.obj [("distance", JSVal.num 100)],
        JSVal.obj [("distance", JSVal.num 222)]])
        [⟨"distance", "less than", JSVal.str "200"⟩] = Except.ok false
    ∧ complyWith (JSVal.arr [JSVal.obj [("distance", JSVal.num 100)],
        JSVal.obj [("distance", JSVal.num 150)]])
        [⟨"distance", "less than", JSVal.str "200"⟩] = Except.ok true := by
  refine ⟨?_, by decide, by decide, by decide⟩
  have hone : ∀ (element : JSVal) (r : ResolvedRestriction),
      r ∈ substituteOperators restrictions →
      applyOperator element r = Except.ok (restrictionHolds element r) := by
    intro element r hr
    rcases List.mem_map.mp hr with ⟨r0, hr0, hsub⟩
    have hop : (operators r0.operator).isSome = true := hall r0 hr0
    rcases Option.isSome_iff_exists.mp hop with ⟨op, hopEq⟩
    subst hsub
    simp [applyOperator, restrictionHolds, substituteOperator, hopEq]
  cases input with
  | arr xs =>
    show jsEvery xs _ = _
    refine jsEvery_ok xs _ _ ?_
    intro element hel
    exact jsEvery_ok (substituteOperators restrictions) _ _ (hone element)
  | str s => exact jsEvery_ok _ _ _ (hone (JSVal.str s))
  | num n => exact jsEvery_ok _ _ _ (hone (JSVal.num n))
  | bool b => exact jsEvery_ok _ _ _ (hone (JSVal.bool b))
  | null => exact jsEvery_ok _ _ _ (hone JSVal.null)
  | undef => exact jsEvery_ok _ _ _ (hone JSVal.undef)
  | obj kvs => exact jsEvery_ok _ _ _ (hone (JSVal.obj kvs))

/-- Witness for C5 at the unit-test instance: the single record with
distance 100 complies with distance less than 200. -/
theorem complyWith_claim_witness :
    complyWith (JSVal.obj [("distance", JSVal.num 100)])
      [⟨"distance", "less than", JSVal.str "200"⟩] = Except.ok true :=
  (complyWith_claim (JSVal.obj [("distance", JSVal.num 100)])
    [⟨"distance", "less than", JSVal.str "200"⟩]
    (by intro r hr; rw [List.mem_singleton] at hr; subst hr; rfl)).2.1

/-- C6: substituteOperators keeps length, property and value of every
restriction and replaces the symbolic operator name by its registry
entry; the registry holds exactly "less than", which compares the two
operands as numbers, and every other name resolves to nothing (the
JavaScript value undefined).  The source clones the list before touching
it, so the argument list is untouched, which the pure embedding renders
automatic. -/
theorem substituteOperators_claim (restrictions : List Restriction) :
    (substituteOperators restrictions).length = restrictions.length
    ∧ (∀ i, ((substituteOperators restrictions).get? i).map ResolvedRestriction.property =
        (restrictions.get? i).map Restriction.property)
    ∧ (∀ i, ((substituteOperators restrictions).get? i).map ResolvedRestriction.value =
        (restrictions.get? i).map Restriction.value)
    ∧ (∀ i r, restrictions.get? i = some r →
        ((substituteOperators restrictions).get? i).map ResolvedRestriction.operator =
          some (operators r.operator))
    ∧ operators "less than" = some jsLessThan
    ∧ (∀ name, name ≠ "less than" → operators name = none)
    ∧ (∀ a b x y, toNumber a = some x → toNumber b = some y →
        jsLessThan a b = decide (x < y))
    ∧ (∀ a b, toNumber a = none ∨ toNumber b = none → jsLessThan a b = false) := by
  have hmap : ∀ i, (substituteOperators restrictions).get? i =
      (restrictions.get? i).map (substituteOperator operators) := by
    intro i
    exact List.get?_map (substituteOperator operators) restrictions i
  refine ⟨by simp [substituteOperators], ?_, ?_, ?_, rfl, ?_, ?_, ?_⟩
  · intro i
    rw [hmap i, Option.map_map]
    rfl
  · intro i
    rw [hmap i, Option.map_map]
    rfl
  · intro i r hr
    rw [hmap i, hr]
    rfl
  · intro name hname
    simp [operators, hname]
  · intro a b x y hx hy
    simp [jsLessThan, hx, hy]
  · intro a b hnone
    rcases hnone with hx | hx
    · simp [jsLessThan, hx]
    · unfold jsLessThan
      rw [hx]
      cases toNumber a <;> rfl

/-- Witness for C6: an unregistered name resolves to nothing and the
resolved less-than coerces the string "200" before comparing. -/
theorem substituteOperators_claim_witness :
    operators "greater than" = none
    ∧ jsLessThan (JSVal.num 100) (JSVal.str "200") = true := by
  obtain ⟨-, -, -, -, -, hnone, hlt, -⟩ := substituteOperators_claim []
  refine ⟨hnone "greater than" (by decide), ?_⟩
  rw [hlt (JSVal.num 100) (JSVal.str "200") 100 200 (by decide) (by decide)]
  decide

/-! ### Field mapper, from src/app/tools.js

mapKeysWith(data, contract): contractProps = invert(contract) maps every
input field name to its output name, later contract entries overwriting
earlier ones on a shared input name; mapKeys rebuilds the object with key
contractProps[key] for each entry, an unmatched key collapsing to the
string key "undefined"; delete mapped.undefined then drops that entry. -/

/-- lodash invert: fold the entries, assigning result[value] = key, so a
repeated value keeps the key seen last. -/
def invert (contract : List (String × String)) : List (String × String) :=
  contract.foldl (fun acc p => propSet acc p.2 p.1) []

/-- mapKeysWith from src/app/tools.js.  The fold is lodash mapKeys with
iteratee contractProps[key] (an absent match giving the property key
"undefined" of JavaScript), the filter is delete mapped.undefined. -/
def mapKeysWith (data : List (String × JSVal)) (contract : List (String × String)) :
    List (String × JSVal) :=
  (data.foldl
    (fun acc kv => propSet acc ((propGet (invert contract) kv.1).getD "undefined") kv.2)
    []).filter (fun p => !(p.1 == "undefined"))

/-! ### Association-list lemmas -/

theorem propGet_nil {β : Type} (k : String) : propGet ([] : List (String × β)) k = none := rfl

theorem propGet_cons {β : Type} (p : String × β) (l : List (String × β)) (k : String) :
    propGet (p :: l) k = if p.1 = k then some p.2 else propGet l k := by
  by_cases hp : p.1 = k
  · have hb : (p.1 == k) = true := by simpa using hp
    simp [propGet, List.find?, hb, hp]
  · have hb : (p.1 == k) = false := by simpa using hp
    simp [propGet, List.find?, hb, hp]

theorem propGet_propSet_self {β : Type} (l : List (String × β)) (k : String) (v : β) :
    propGet (propSet l k v) k = some v := by
  induction l with
  | nil => simp [propSet, propGet_cons]
  | cons p rest ih =>
    by_cases hp : p.1 = k
    · simp [propSet, if_pos hp, propGet_cons]
    · simp only [propSet, if_neg hp, propGet_cons, if_neg hp]
      exact ih

theorem propGet_propSet_ne {β : Type} (l : List (String × β)) (k k2 : String) (v : β)
    (h : k ≠ k2) : propGet (propSet l k v) k2 = propGet l k2 := by
  induction l with
  | nil => simp [propSet, propGet_cons, h]
  | cons p rest ih =>
    by_cases hp : p.1 = k
    · have hp2 : p.1 ≠ k2 := fun he => h (hp.symm.trans he)
      simp only [propSet, if_pos hp, propGet_cons, if_neg h, if_neg hp2]
    · simp only [propSet, if_neg hp, propGet_cons]
      by_cases hpk2 : p.1 = k2
      · simp only [if_pos hpk2]
      · simp only [if_neg hpk2]
        exact ih

theorem propGet_isSome_iff {β : Type} (l : List (String × β)) (k : String) :
    (propGet l k).isSome = true ↔ k ∈ l.map Prod.fst := by
  induction l with
  | nil => simp [propGet]
  | cons p rest ih =>
    rw [propGet_cons, List.map_cons, List.mem_cons]
    by_cases hp : p.1 = k
    · simp [if_pos hp, hp.symm]
    · have hk : ¬ k = p.1 := fun he => hp he.symm
      rw [if_neg hp, ih]
      simp [hk]

theorem propGet_filterOut {β : Type} (l : List (String × β)) (s k : String) (h : k ≠ s) :
    propGet (l.filter (fun p => !(p.1 == s))) k = propGet l k := by
  induction l with
  | nil => rfl
  | cons p rest ih =>
    rw [List.filter_cons]
    by_cases hps : p.1 = s
    · have hcond : (!(p.1 == s)) = false := by simpa using hps
      rw [hcond, if_neg Bool.false_ne_true]
      have hpk : p.1 ≠ k := fun he => h (he.symm.trans hps)
      rw [ih, propGet_cons, if_neg hpk]
    · have hcond : (!(p.1 == s)) = true := by simpa using hps
      rw [hcond, if_pos rfl, propGet_cons, propGet_cons]
      by_cases hpk : p.1 = k
      · rw [if_pos hpk, if_pos hpk]
      · rw [if_neg hpk, if_neg hpk, ih]

theorem find?_congrOn {α : Type} (l : List α) (p q : α → Bool)
    (h : ∀ x ∈ l, p x = q x) : l.find? p = l.find? q := by
  induction l with
  | nil => rfl
  | cons x rest ih =>
    have hx := h x (List.mem_cons_self x rest)
    have htail := ih (fun y hy => h y (List.mem_cons_of_mem x hy))
    simp only [List.find?]
    rw [hx, htail]

theorem propGet_eq_some_iff_mem {β : Type} (l : List (String × β)) :
    (l.map Prod.fst).Nodup → ∀ (k : String) (v : β), (propGet l k = some v ↔ (k, v) ∈ l) := by
  induction l with
  | nil =>
    intro _ k v
    simp [propGet]
  | cons p rest ih =>
    obtain ⟨a, b⟩ := p
    intro hk k v
    rw [List.map_cons, List.nodup_cons] at hk
    rw [propGet_cons, List.mem_cons]
    by_cases hp : a = k
    · subst hp
      rw [if_pos rfl]
      constructor
      · intro hv
        have hbv : b = v := Option.some.inj hv
        exact Or.inl (by rw [← hbv])
      · rintro (heq | hmem)
        · rw [Prod.mk.injEq] at heq
          rw [heq.2]
        · exfalso
          exact hk.1 (List.mem_map.mpr ⟨(a, v), hmem, rfl⟩)
    · rw [if_neg hp, ih hk.2 k v]
      constructor
      · exact Or.inr
      · rintro (heq | hmem)
        · exact absurd (congrArg Prod.fst heq).symm hp
        · exact hmem

theorem find_snd_eq_some_iff (c : List (String × String)) :
    (c.map Prod.snd).Nodup → ∀ (k o : String),
      ((c.find? (fun p => p.2 == k)).map Prod.fst = some o ↔ (o, k) ∈ c) := by
  induction c with
  | nil =>
    intro _ k o
    simp [List.find?]
  | cons p rest ih =>
    obtain ⟨a, b⟩ := p
    intro hcv k o
    rw [List.map_cons, List.nodup_cons] at hcv
    rw [List.mem_cons]
    by_cases hp : b = k
    · subst hp
      have hfind : List.find? (fun q => q.2 == b) ((a, b) :: rest) = some (a, b) := by
        simp [List.find?_cons]
      rw [hfind]
      constructor
      · intro ho
        have hao : a = o := by simpa using ho
        exact Or.inl (by rw [← hao])
      · rintro (heq | hmem)
        · rw [Prod.mk.injEq] at heq
          rw [heq.1]
          rfl
        · exfalso
          exact hcv.1 (List.mem_map.mpr ⟨(o, b), hmem, rfl⟩)
    · have hfind : List.find? (fun q => q.2 == k) ((a, b) :: rest) =
          List.find? (fun q => q.2 == k) rest := by
        simp [List.find?_cons, hp]
      rw [hfind, ih hcv.2 k o]
      constructor
      · exact Or.inr
      · rintro (heq | hmem)
        · exact absurd (congrArg Prod.snd heq).symm hp
        · exact hmem

theorem invert_append_single (c : List (String × String)) (p : String × String) :
    invert (c ++ [p]) = propSet (invert c) p.2 p.1 := by
  unfold invert
  rw [List.foldl_append]
  rfl

theorem invert_lookup (c : List (String × String)) :
    (c.map Prod.snd).Nodup → ∀ k : String,
      propGet (invert c) k = (c.find? (fun p => p.2 == k)).map Prod.fst := by
  induction c using List.reverseRecOn with
  | nil =>
    intro _ k
    rfl
  | append_singleton c p ih =>
    intro hcv k
    rw [List.map_append, List.nodup_append] at hcv
    obtain ⟨hc, -, hdisj⟩ := hcv
    have hnm : p.2 ∉ c.map Prod.snd := fun hmem => hdisj hmem (by simp)
    rw [invert_append_single]
    by_cases hv : p.2 = k
    · rw [hv, propGet_propSet_self]
      have hcnone : c.find? (fun q => q.2 == k) = none := by
        rw [List.find?_eq_none]
        intro q hq
        simp only [beq_iff_eq]
        intro hqk
        exact hnm (hv ▸ hqk ▸ List.mem_map.mpr ⟨q, hq, rfl⟩)
      rw [List.find?_append, hcnone]
      have hpk : (p.2 == k) = true := by simpa using hv
      simp [List.find?, hpk]
    · rw [propGet_propSet_ne _ _ _ _ hv, ih hc k, List.find?_append]
      have hpk : (p.2 == k) = false := by simpa using hv
      cases hfc : c.find? (fun q => q.2 == k) with
      | some q => rfl
      | none => simp [List.find?, hpk]

theorem foldl_propSet_lookup (nk : String → String) (o : String) :
    ∀ (data : List (String × JSVal)) (acc : List (String × JSVal)),
    (data.map Prod.fst).Nodup →
    (∀ k1 k2, nk k1 = o → nk k2 = o → k1 = k2) →
    propGet (data.foldl (fun acc2 kv => propSet acc2 (nk kv.1) kv.2) acc) o =
      (match data.find? (fun kv => nk kv.1 == o) with
       | some kv => some kv.2
       | none => propGet acc o)
  | [], acc, _, _ => rfl
  | kv :: rest, acc, hd, uniq => by
    rw [List.map_cons, List.nodup_cons] at hd
    have ih := foldl_propSet_lookup nk o rest (propSet acc (nk kv.1) kv.2) hd.2 uniq
    rw [List.foldl_cons, ih]
    by_cases hkv : nk kv.1 = o
    · have hpred : (nk kv.1 == o) = true := by simpa using hkv
      have hrest : rest.find? (fun kv2 => nk kv2.1 == o) = none := by
        rw [List.find?_eq_none]
        intro kv2 hkv2
        simp only [beq_iff_eq]
        intro heq
        exact hd.1 ((uniq kv2.1 kv.1 heq hkv) ▸ List.mem_map.mpr ⟨kv2, hkv2, rfl⟩)
      rw [hrest]
      simp only [List.find?, hpred]
      rw [← hkv, propGet_propSet_self]
    · have hpred : (nk kv.1 == o) = false := by simpa using hkv
      simp only [List.find?, hpred]
      cases hfr : rest.find? (fun kv2 => nk kv2.1 == o) with
      | some kv2 => rfl
      | none => exact propGet_propSet_ne acc (nk kv.1) o kv.2 hkv

/-- The whole lookup behaviour of mapKeysWith on well-formed objects: at
any output name other than "undefined" the result holds exactly
data[contract[o]]. -/
theorem mapKeysWith_lookup (data : List (String × JSVal)) (c : List (String × String))
    (hd : (data.map Prod.fst).Nodup) (hck : (c.map Prod.fst).Nodup)
    (hcv : (c.map Prod.snd).Nodup) (o : String) (ho : o ≠ "undefined") :
    propGet (mapKeysWith data c) o = (propGet c o).bind (fun k => propGet data k) := by
  have hnk_iff : ∀ k, ((propGet (invert c) k).getD "undefined" = o) ↔ propGet c o = some k := by
    intro k
    constructor
    · intro h
      cases hcase : propGet (invert c) k with
      | none => rw [hcase] at h; exact absurd h.symm ho
      | some o2 =>
        rw [hcase] at h
        have ho2 : o2 = o := by simpa using h
        rw [invert_lookup c hcv] at hcase
        exact (propGet_eq_some_iff_mem c hck o k).mpr
          ((find_snd_eq_some_iff c hcv k o).mp (ho2 ▸ hcase))
    · intro h
      have hmem : (o, k) ∈ c := (propGet_eq_some_iff_mem c hck o k).mp h
      have hfind := (find_snd_eq_some_iff c hcv k o).mpr hmem
      rw [← invert_lookup c hcv] at hfind
      rw [hfind]
      rfl
  have uniq : ∀ k1 k2, ((propGet (invert c) k1).getD "undefined" = o) →
      ((propGet (invert c) k2).getD "undefined" = o) → k1 = k2 := by
    intro k1 k2 h1 h2
    have e1 := (hnk_iff k1).mp h1
    have e2 := (hnk_iff k2).mp h2
    rw [e1] at e2
    simpa using e2
  show propGet (List.filter _ _) o = _
  rw [propGet_filterOut _ _ _ ho,
    foldl_propSet_lookup (fun k => (propGet (invert c) k).getD "undefined") o data [] hd uniq]
  cases hc : propGet c o with
  | none =>
    have hfind : data.find?
        (fun kv => ((propGet (invert c) kv.1).getD "undefined" == o)) = none := by
      rw [List.find?_eq_none]
      intro kv hkv
      simp only [beq_iff_eq]
      intro heq
      have := (hnk_iff kv.1).mp heq
      rw [hc] at this
      exact Option.noConfusion this
    rw [hfind]
    rfl
  | some k =>
    have hcongr : data.find? (fun kv => ((propGet (invert c) kv.1).getD "undefined" == o)) =
        data.find? (fun kv => kv.1 == k) := by
      refine find?_congrOn data _ _ ?_
      intro kv _
      have : ((propGet (invert c) kv.1).getD "undefined" = o) ↔ kv.1 = k := by
        rw [hnk_iff kv.1, hc]
        simp [eq_comm]
      by_cases hkk : kv.1 = k
      · have h1 : ((propGet (invert c) kv.1).getD "undefined" == o) = true := by
          simpa using this.mpr hkk
        have h2 : (kv.1 == k) = true := by simpa using hkk
        rw [h1, h2]
      · have h1 : ((propGet (invert c) kv.1).getD "undefined" == o) = false := by
          simpa using fun heq => hkk (this.mp heq)
        have h2 : (kv.1 == k) = false := by simpa using hkk
        rw [h1, h2]
    rw [hcongr]
    show _ = propGet data k
    unfold propGet
    cases hfd : data.find? (fun kv => kv.1 == k) with
    | some kv => rfl
    | none => rfl

/-- C1 (amended): when the contract is a genuine JavaScript object whose
input-field values are pairwise distinct, mapKeysWith returns a record
whose key set is exactly the output names o other than "undefined" such
that contract[o] is a key of the record, contains no key named
"undefined", and maps each such o to record[contract[o]]; every record
key with no matching contract entry is dropped. -/
theorem mapKeysWith_claim (data : List (String × JSVal)) (c : List (String × String))
    (hd : (data.map Prod.fst).Nodup) (hck : (c.map Prod.fst).Nodup)
    (hcv : (c.map Prod.snd).Nodup) :
    "undefined" ∉ (mapKeysWith data c).map Prod.fst
    ∧ (∀ o, o ∈ (mapKeysWith data c).map Prod.fst ↔
        (o ≠ "undefined" ∧ ∃ k, propGet c o = some k ∧ k ∈ data.map Prod.fst))
    ∧ (∀ o k v, o ≠ "undefined" → propGet c o = some k → propGet data k = some v →
        propGet (mapKeysWith data c) o = some v) := by
  have hundef : "undefined" ∉ (mapKeysWith data c).map Prod.fst := by
    intro hmem
    rcases List.mem_map.mp hmem with ⟨p, hp, hfst⟩
    have hpred := (List.mem_filter.mp hp).2
    rw [hfst] at hpred
    simp at hpred
  refine ⟨hundef, ?_, ?_⟩
  · intro o
    by_cases ho : o = "undefined"
    · subst ho
      constructor
      · intro hmem
        exact absurd hmem hundef
      · rintro ⟨hne, -⟩
        exact absurd rfl hne
    · rw [← propGet_isSome_iff, mapKeysWith_lookup data c hd hck hcv o ho]
      cases hc : propGet c o with
      | none =>
        constructor
        · intro hfalse
          exact absurd hfalse (by simp)
        · rintro ⟨-, k, hk, -⟩
          exact Option.noConfusion hk
      | some k =>
        show (propGet data k).isSome = true ↔ _
        rw [propGet_isSome_iff]
        constructor
        · intro hmem
          exact ⟨ho, k, rfl, hmem⟩
        · rintro ⟨-, k2, hk2, hmem⟩
          rw [← Option.some.inj hk2] at hmem
          exact hmem
  · intro o k v ho hc hv
    rw [mapKeysWith_lookup data c hd hck hcv o ho, hc]
    exact hv

/-- Counterexample to C1 as frozen: with the record a maps to 1 and the
contract whose output name "undefined" maps to the input name a, the
contract entry for "undefined" does point at a key of the record, yet the
output (the empty object) does not contain the key "undefined": the key
set is not the full set of output names o with contract[o] among the
record keys, because delete mapped.undefined also erases a legitimately
produced "undefined" key. -/
theorem mapKeysWith_counterexample :
    propGet [("undefined", "a")] "undefined" = some "a"
    ∧ "a" ∈ ([("a", JSVal.num 1)] : List (String × JSVal)).map Prod.fst
    ∧ "undefined" ∉ (mapKeysWith [("a", JSVal.num 1)] [("undefined", "a")]).map Prod.fst
    ∧ mapKeysWith [("a", JSVal.num 1)] [("undefined", "a")] = [] := by
  refine ⟨by decide, by decide, by decide, by decide⟩

/-- Witness for C1 at the unit-test instance: contract x maps to a, y to
b; on the record with a = 1 and b = 2 the output holds x = 1. -/
theorem mapKeysWith_claim_witness :
    propGet (mapKeysWith [("a", JSVal.num 1), ("b", JSVal.num 2)] [("x", "a"), ("y", "b")])
      "x" = some (JSVal.num 1) :=
  (mapKeysWith_claim [("a", JSVal.num 1), ("b", JSVal.num 2)] [("x", "a"), ("y", "b")]
    (by decide) (by decide) (by decide)).2.2 "x" "a" (JSVal.num 1)
    (by decide) (by decide) (by decide)

/-! ### Path mutator, from src/app/tools.js

setWith(path, modifier) = payload => set(cloneDeep(payload), path,
modifier(get(cloneDeep(payload), path))), with the lodash get and set
helpers over dotted string paths.  cloneDeep is the identity on values,
so the embedding is the pure read-transform-write. -/

/-- Splitting of a character list at every dot, the lodash parsing of a
dotted string path. -/
def splitOnDot : List Char → List (List Char)
  | [] => [[]]
  | c :: cs =>
    if c = '.' then [] :: splitOnDot cs
    else
      match splitOnDot cs with
      | [] => [[c]]
      | g :: gs => (c :: g) :: gs

/-- The key list of a dotted string path. -/
def splitPath (s : String) : List String :=
  (splitOnDot s.data).map String.mk

/-- Canonical array index denoted by a key, if any: the decimal digits of
the key with no sign and no superfluous leading zero. -/
def strToIndex (s : String) : Option Nat :=
  match digitsToNat s.data with
  | some n => if toString n = s then some n else none
  | none => none

/-- lodash get along a key list: step into the object property or array
element, undefined as soon as the walk leaves the data. -/
def getPath (o : JSVal) : List String → JSVal
  | [] => o
  | k :: ks => getPath (getProp o k) ks

/-- Assignment of an array element, padding with undefined when the index
lies beyond the end, as lodash set does. -/
def setIdx (xs : List JSVal) (i : Nat) (v : JSVal) : List JSVal :=
  if i < xs.length then xs.set i v
  else xs ++ List.replicate (i - xs.length) JSVal.undef ++ [v]

/-- One assignment step of lodash set: update an object property, an
array slot at an index key, and rebuild a fresh object over any non
container.  (A non index key on an array would attach a property to the
array object in JavaScript, which the model cannot carry; no code path
of the repository does that.) -/
def objSet (o : JSVal) (k : String) (v : JSVal) : JSVal :=
  match o with
  | .obj kvs => .obj (propSet kvs k v)
  | .arr xs =>
    match strToIndex k with
    | some i => .arr (setIdx xs i v)
    | none => .arr xs
  | _ => .obj [(k, v)]

/-- lodash set along a key list: walk the prefix, building objects over
missing or primitive intermediates, and assign at the last key.  (lodash
would build an array instead when the next key is an index; the paths of
the repository have no numeric segment.) -/
def setPath (o : JSVal) : List String → JSVal → JSVal
  | [], _ => o
  | [k], v => objSet o k v
  | k :: k2 :: ks, v => objSet o k (setPath (getProp o k) (k2 :: ks) v)

/-- Presence of a dotted path in a value: every segment steps through an
existing object property. -/
def hasPath : JSVal → List String → Bool
  | _, [] => true
  | .obj kvs, k :: ks =>
    match List.find? (fun p => p.1 == k) kvs with
    | some p => hasPath p.2 ks
    | none => false
  | _, _ :: _ => false

/-- setWith from src/app/tools.js. -/
def setWith (path : String) (modifier : JSVal → JSVal) : JSVal → JSVal :=
  fun payload =>
    setPath payload (splitPath path) (modifier (getPath payload (splitPath path)))

/-! ### Lemmas about the path mutator -/

theorem propSet_propGet_self {β : Type} (l : List (String × β)) (k : String) (v : β)
    (h : propGet l k = some v) : propSet l k v = l := by
  induction l with
  | nil => exact absurd h (by simp [propGet])
  | cons p rest ih =>
    obtain ⟨a, b⟩ := p
    rw [propGet_cons] at h
    by_cases hp : a = k
    · have hbv : b = v := by
        rw [if_pos hp] at h
        exact Option.some.inj h
      show (if a = k then (k, v) :: rest else _) = _
      rw [if_pos hp, ← hp, ← hbv]
    · rw [if_neg hp] at h
      show (if a = k then _ else (a, b) :: propSet rest k v) = _
      rw [if_neg hp, ih h]

theorem setPath_getPath : ∀ (ks : List String) (o : JSVal),
    hasPath o ks = true → setPath o ks (getPath o ks) = o
  | [], _, _ => rfl
  | [k], o, h => by
    cases o with
    | obj kvs =>
      have h2 : (match List.find? (fun p => p.1 == k) kvs with
          | some p => hasPath p.2 []
          | none => false) = true := h
      cases hf : List.find? (fun p => p.1 == k) kvs with
      | none => rw [hf] at h2; exact absurd h2 (by simp)
      | some p =>
        have hget : getProp (JSVal.obj kvs) k = p.2 := by
          unfold getProp propGet ownEntries
          rw [hf]
          rfl
        show objSet (JSVal.obj kvs) k (getPath (getProp (JSVal.obj kvs) k) []) = _
        rw [hget]
        show JSVal.obj (propSet kvs k p.2) = _
        rw [propSet_propGet_self kvs k p.2 (by unfold propGet; rw [hf]; rfl)]
    | str s => exact absurd h (by simp [hasPath])
    | num n => exact absurd h (by simp [hasPath])
    | bool b => exact absurd h (by simp [hasPath])
    | null => exact absurd h (by simp [hasPath])
    | undef => exact absurd h (by simp [hasPath])
    | arr xs => exact absurd h (by simp [hasPath])
  | k :: k2 :: ks, o, h => by
    cases o with
    | obj kvs =>
      have h2 : (match List.find? (fun p => p.1 == k) kvs with
          | some p => hasPath p.2 (k2 :: ks)
          | none => false) = true := h
      cases hf : List.find? (fun p => p.1 == k) kvs with
      | none => rw [hf] at h2; exact absurd h2 (by simp)
      | some p =>
        rw [hf] at h2
        have hget : getProp (JSVal.obj kvs) k = p.2 := by
          unfold getProp propGet ownEntries
          rw [hf]
          rfl
        show objSet (JSVal.obj kvs) k
            (setPath (getProp (JSVal.obj kvs) k) (k2 :: ks)
              (getPath (getProp (JSVal.obj kvs) k) (k2 :: ks))) = _
        rw [hget, setPath_getPath (k2 :: ks) p.2 h2]
        show JSVal.obj (propSet kvs k p.2) = _
        rw [propSet_propGet_self kvs k p.2 (by unfold propGet; rw [hf]; rfl)]
    | str s => exact absurd h (by simp [hasPath])
    | num n => exact absurd h (by simp [hasPath])
    | bool b => exact absurd h (by simp [hasPath])
    | null => exact absurd h (by simp [hasPath])
    | undef => exact absurd h (by simp [hasPath])
    | arr xs => exact absurd h (by simp [hasPath])

/-- C8 (amended): for any envelope and any dotted path every segment of
which exists as an object field, setWith with the identity transform
returns the envelope unchanged as a value, every field included; the
pure embedding cannot speak about reference identity, and the source
clones the envelope, so the result shares no reference with the input. -/
theorem setWith_identity (payload : JSVal) (path : String)
    (h : hasPath payload (splitPath path) = true) :
    setWith path (fun v => v) payload = payload :=
  setPath_getPath (splitPath path) payload h

/-- Counterexample to C8 as frozen: on the empty envelope and the path a,
setWith with the identity does not return a structurally equal envelope:
lodash set creates the missing path, so the key a appears, bound to
undefined. -/
theorem setWith_counterexample :
    setWith "a" (fun v => v) (JSVal.obj []) ≠ JSVal.obj []
    ∧ setWith "a" (fun v => v) (JSVal.obj []) = JSVal.obj [("a", JSVal.undef)] := by
  refine ⟨by decide, by decide⟩

/-- Witness for C8 at the unit-test envelope shape: the path event.body
exists, and setWith with the identity is the identity there. -/
theorem setWith_identity_witness :
    setWith "event.body" (fun v => v)
      (JSVal.obj [("event", JSVal.obj [("body", JSVal.str "body")])]) =
      JSVal.obj [("event", JSVal.obj [("body", JSVal.str "body")])] :=
  setWith_identity (JSVal.obj [("event", JSVal.obj [("body", JSVal.str "body")])])
    "event.body" (by decide)

/-! ### mapResponse, from src/app/tools.js -/

mutual

/-- The JavaScript string coercion used by lodash invert on contract
values.  Array elements stringify recursively with comma separators,
null and undefined elements becoming empty, as Array.prototype.toString
does. -/
def jsToString : JSVal → String
  | .str s => s
  | .num n => toString n
  | .bool b => cond b "true" "false"
  | .null => "null"
  | .undef => "undefined"
  | .obj _ => "[object Object]"
  | .arr xs => jsArrToString xs

/-- Stringification of array elements joined by commas. -/
def jsArrToString : List JSVal → String
  | [] => ""
  | x :: rest =>
    let hd := match x with
      | JSVal.null => ""
      | JSVal.undef => ""
      | v => jsToString v
    match rest with
    | [] => hd
    | _ :: _ => hd ++ "," ++ jsArrToString rest

end

/-- The entries of a contract value as lodash invert reads them: the own
enumerable entries, each value coerced to a string. -/
def contractPairs (c : JSVal) : List (String × String) :=
  (ownEntries c).map (fun kv => (kv.1, jsToString kv.2))

/-- mapKeysWith lifted to arbitrary values for the call sites inside
mapResponse: lodash mapKeys iterates the own enumerable entries of its
first argument and lodash invert those of the contract, so a primitive
body or an absent contract collapses to the empty object. -/
def mapKeysWithJS (data contract : JSVal) : JSVal :=
  JSVal.obj (mapKeysWith (ownEntries data) (contractPairs contract))

/-- mapResponse from src/app/tools.js: the contract is destructured from
get(payload, data.config, default empty object), a TypeError when that
resolves to null; the body is destructured from get(payload,
data.response), a TypeError when that is null or undefined; an array
body is mapped elementwise and any other body once; the result lands at
data.mappedResponse of the fresh envelope. -/
def mapResponse (payload : JSVal) : Except String JSVal :=
  let cfg0 := getPath payload ["data", "config"]
  let cfg := if cfg0 = JSVal.undef then JSVal.obj [] else cfg0
  if cfg = JSVal.null then
    Except.error "TypeError: Cannot destructure contract of null"
  else
    let contract := getProp cfg "contract"
    let resp := getPath payload ["data", "response"]
    if resp = JSVal.null ∨ resp = JSVal.undef then
      Except.error "TypeError: Cannot destructure body of a missing response"
    else
      let result := match getProp resp "body" with
        | JSVal.arr xs => JSVal.arr (xs.map (fun element => mapKeysWithJS element contract))
        | b => mapKeysWithJS b contract
      Except.ok (setPath payload ["data", "mappedResponse"] result)

/-! ### Lemmas about mapResponse -/

theorem jsIsObj_exists (v : JSVal) (h : jsIsObj v = true) : ∃ kvs, v = JSVal.obj kvs := by
  cases v <;> first | exact ⟨_, rfl⟩ | exact absurd h (by simp [jsIsObj])

theorem getProp_objSet_self (kvs : List (String × JSVal)) (k : String) (v : JSVal) :
    getProp (JSVal.obj (propSet kvs k v)) k = v := by
  unfold getProp ownEntries
  rw [propGet_propSet_self]
  rfl

theorem getProp_objSet_ne (kvs : List (String × JSVal)) (k k2 : String) (v : JSVal)
    (h : k ≠ k2) :
    getProp (JSVal.obj (propSet kvs k v)) k2 = getProp (JSVal.obj kvs) k2 := by
  unfold getProp ownEntries
  rw [propGet_propSet_ne _ _ _ _ h]

/-- C9: on an envelope whose data field is an object, whose data.config
is not null and whose data.response is an object, mapResponse succeeds
and returns an envelope holding at data.mappedResponse the contract
mapping of data.response.body (elementwise on an array body), while
data.response, every other field under data and every field beside data
are exactly those of the input; the input itself, being a value, is
untouched, as the source arranges by deep cloning. -/
theorem mapResponse_claim (payload : JSVal)
    (hp : jsIsObj payload = true)
    (hdata : jsIsObj (getProp payload "data") = true)
    (hcfg : getPath payload ["data", "config"] ≠ JSVal.null)
    (hresp : jsIsObj (getPath payload ["data", "response"]) = true) :
    ∃ out, mapResponse payload = Except.ok out
    ∧ getPath out ["data", "mappedResponse"] =
        (match getProp (getPath payload ["data", "response"]) "body" with
         | JSVal.arr xs => JSVal.arr (xs.map (fun element =>
             mapKeysWithJS element (getPath payload ["data", "config", "contract"])))
         | b => mapKeysWithJS b (getPath payload ["data", "config", "contract"]))
    ∧ getPath out ["data", "response"] = getPath payload ["data", "response"]
    ∧ (∀ k, k ≠ "mappedResponse" → getPath out ["data", k] = getPath payload ["data", k])
    ∧ (∀ k, k ≠ "data" → getProp out k = getProp payload k) := by
  obtain ⟨pkvs, hpay⟩ := jsIsObj_exists payload hp
  obtain ⟨dkvs, hdval⟩ := jsIsObj_exists (getProp payload "data") hdata
  obtain ⟨rkvs, hrval⟩ := jsIsObj_exists (getPath payload ["data", "response"]) hresp
  have hcontract :
      getProp (if getPath payload ["data", "config"] = JSVal.undef then JSVal.obj []
        else getPath payload ["data", "config"]) "contract" =
      getPath payload ["data", "config", "contract"] := by
    by_cases hu : getPath payload ["data", "config"] = JSVal.undef
    · rw [if_pos hu]
      show JSVal.undef = getPath payload ["data", "config", "contract"]
      show JSVal.undef = getProp (getPath payload ["data", "config"]) "contract"
      rw [hu]
      rfl
    · rw [if_neg hu]
      rfl
  have hcfgne : ¬ ((if getPath payload ["data", "config"] = JSVal.undef then JSVal.obj []
      else getPath payload ["data", "config"]) = JSVal.null) := by
    by_cases hu : getPath payload ["data", "config"] = JSVal.undef
    · rw [if_pos hu]
      decide
    · rw [if_neg hu]
      exact hcfg
  have hrespne : ¬ (getPath payload ["data", "response"] = JSVal.null
      ∨ getPath payload ["data", "response"] = JSVal.undef) := by
    rw [hrval]
    rintro (hbad | hbad) <;> exact JSVal.noConfusion hbad
  have hrun : mapResponse payload = Except.ok (setPath payload ["data", "mappedResponse"]
      (match getProp (getPath payload ["data", "response"]) "body" with
       | JSVal.arr xs => JSVal.arr (xs.map (fun element =>
           mapKeysWithJS element (getPath payload ["data", "config", "contract"])))
       | b => mapKeysWithJS b (getPath payload ["data", "config", "contract"]))) := by
    show (if (if getPath payload ["data", "config"] = JSVal.undef then JSVal.obj []
        else getPath payload ["data", "config"]) = JSVal.null then
        Except.error "TypeError: Cannot destructure contract of null"
      else if getPath payload ["data", "response"] = JSVal.null
          ∨ getPath payload ["data", "response"] = JSVal.undef then
        Except.error "TypeError: Cannot destructure body of a missing response"
      else Except.ok (setPath payload ["data", "mappedResponse"]
        (match getProp (getPath payload ["data", "response"]) "body" with
         | JSVal.arr xs => JSVal.arr (xs.map (fun element => mapKeysWithJS element
             (getProp (if getPath payload ["data", "config"] = JSVal.undef then JSVal.obj []
               else getPath payload ["data", "config"]) "contract")))
         | b => mapKeysWithJS b
             (getProp (if getPath payload ["data", "config"] = JSVal.undef then JSVal.obj []
               else getPath payload ["data", "config"]) "contract")))) = _
    rw [if_neg hcfgne, if_neg hrespne, hcontract]
  refine ⟨_, hrun, ?_, ?_, ?_, ?_⟩
  all_goals
    have hset : setPath payload ["data", "mappedResponse"]
        (match getProp (getPath payload ["data", "response"]) "body" with
         | JSVal.arr xs => JSVal.arr (xs.map (fun element =>
             mapKeysWithJS element (getPath payload ["data", "config", "contract"])))
         | b => mapKeysWithJS b (getPath payload ["data", "config", "contract"])) =
        JSVal.obj (propSet pkvs "data" (JSVal.obj (propSet dkvs "mappedResponse"
          (match getProp (getPath payload ["data", "response"]) "body" with
           | JSVal.arr xs => JSVal.arr (xs.map (fun element =>
               mapKeysWithJS element (getPath payload ["data", "config", "contract"])))
           | b => mapKeysWithJS b (getPath payload ["data", "config", "contract"]))))) := by
      show objSet payload "data" (objSet (getProp payload "data") "mappedResponse" _) = _
      rw [hdval]
      show objSet payload "data" (JSVal.obj (propSet dkvs "mappedResponse" _)) = _
      rw [hpay]
      rfl
  · rw [hset]
    show getProp (getProp (JSVal.obj (propSet pkvs "data" _)) "data") "mappedResponse" = _
    rw [getProp_objSet_self, getProp_objSet_self]
  · rw [hset]
    show getProp (getProp (JSVal.obj (propSet pkvs "data" _)) "data") "response" = _
    rw [getProp_objSet_self,
      getProp_objSet_ne dkvs "mappedResponse" "response" _ (by decide), ← hdval]
    rfl
  · intro k hk
    rw [hset]
    show getProp (getProp (JSVal.obj (propSet pkvs "data" _)) "data") k = _
    rw [getProp_objSet_self,
      getProp_objSet_ne dkvs "mappedResponse" k _ (fun he => hk he.symm), ← hdval]
    rfl
  · intro k hk
    rw [hset]
    rw [getProp_objSet_ne pkvs "data" k _ (fun he => hk he.symm), ← hpay]

/-- Witness for C9 at the unit-test envelope: contract x maps to a and y
to b, the body is the single row a = 1, b = 2; mapResponse succeeds, the
mapped response is the renamed row and data.response is untouched. -/
theorem mapResponse_claim_witness :
    ∃ out, mapResponse (JSVal.obj [("data", JSVal.obj [
        ("config", JSVal.obj [("contract",
          JSVal.obj [("x", JSVal.str "a"), ("y", JSVal.str "b")])]),
        ("response", JSVal.obj [("body",
          JSVal.arr [JSVal.obj [("a", JSVal.num 1), ("b", JSVal.num 2)]])])])]) =
      Except.ok out
    ∧ getPath out ["data", "mappedResponse"] =
        JSVal.arr [JSVal.obj [("x", JSVal.num 1), ("y", JSVal.num 2)]]
    ∧ getPath out ["data", "response"] =
        JSVal.obj [("body", JSVal.arr [JSVal.obj [("a", JSVal.num 1), ("b", JSVal.num 2)]])] := by
  obtain ⟨out, h1, h2, h3, -, -⟩ := mapResponse_claim
    (JSVal.obj [("data", JSVal.obj [
      ("config", JSVal.obj [("contract",
        JSVal.obj [("x", JSVal.str "a"), ("y", JSVal.str "b")])]),
      ("response", JSVal.obj [("body",
        JSVal.arr [JSVal.obj [("a", JSVal.num 1), ("b", JSVal.num 2)]])])])])
    (by decide) (by decide) (by decide) (by decide)
  exact ⟨out, h1, h2.trans (by decide), h3.trans (by decide)⟩

end App
